import Mathlib

/-!
Shallow embedding of the thread-safe LRU cache implemented in
`LRU Cache/LRUCache.h` of the MultiThreading repository.

The C++ class `LRUCache<Key, Value>` keeps
  * `cache_items_ : std::list<std::pair<Key, Value>>` — the recency list,
    front = most recently used, back = least recently used;
  * `cacheMap : std::unordered_map<Key, iterator>` — the index from key to
    the list node holding that key;
  * `capacity_ : size_t` — the fixed capacity.

In the embedding the recency list is a Lean `List (K × V)` with the head
playing the role of the C++ list front.  The `unordered_map` stores, for
each key, an iterator to the unique list node carrying that key; since the
iterator is determined by the key (the node is found by searching the list
for the key), the map is embedded as its key set, a `List K`.  Dereferencing
the stored iterator is embedded as `List.find?` on the recency list for the
first node with that key; in every state the C++ code can reach, that node
is exactly the node the iterator denotes.  The mutex only serialises the
operations and has no sequential behaviour, so the embedding is the
sequential small-step semantics of the four member functions.
-/

namespace LRUSpec

/-- The state of an `LRUCache<Key, Value>` object: fixed capacity, the
recency list (head = most recently used), and the key set of the index map. -/
structure LRUCache (K V : Type) where
  capacity_ : Nat
  cache_items_ : List (K × V)
  cacheMap : List K
deriving Repr, DecidableEq

variable {K V : Type} [DecidableEq K]

/-- The predicate the embedded iterator dereference uses: does list node `p`
carry key `key`?  (In C++ the iterator stored in `cacheMap` points directly
at that node.) -/
def keyMatches (key : K) (p : K × V) : Bool := decide (p.1 = key)

/-- `explicit LRUCache(size_t capacity) : capacity_(capacity) {}` —
construction stores the capacity unchecked and leaves both containers empty. -/
def LRUCache.init (capacity : Nat) : LRUCache K V :=
  { capacity_ := capacity, cache_items_ := [], cacheMap := [] }

/-- `bool get(const Key& key, Value& value)`: look the key up in `cacheMap`;
on a miss return `false` (embedded as `none`) touching nothing; on a hit
splice the node to the front of `cache_items_` and return its value.
The inner `none` branch corresponds to the stored iterator not denoting any
node of the list, which in C++ would be undefined behaviour; it is
unreachable from well-formed states. -/
def LRUCache.get (c : LRUCache K V) (key : K) : Option V × LRUCache K V :=
  if key ∈ c.cacheMap then
    match c.cache_items_.find? (keyMatches key) with
    | some e =>
        (some e.2,
         { c with cache_items_ := e :: c.cache_items_.eraseP (keyMatches key) })
    | none => (none, c)
  else
    (none, c)

/-- `void put(const Key& key, const Value& value)`:
if the key is in `cacheMap`, overwrite the node's value and splice it to the
front; otherwise `emplace_front` the new pair, insert the key into
`cacheMap`, and, if `cacheMap.size() > capacity_`, erase the back node's key
from `cacheMap` and `pop_back` the list.  As in `get`, the inner `none`
branch of the hit case is the unreachable dangling-iterator situation. -/
def LRUCache.put (c : LRUCache K V) (key : K) (value : V) : LRUCache K V :=
  if key ∈ c.cacheMap then
    match c.cache_items_.find? (keyMatches key) with
    | some _ =>
        { c with cache_items_ :=
            (key, value) :: c.cache_items_.eraseP (keyMatches key) }
    | none => c
  else
    if c.cacheMap.length + 1 > c.capacity_ then
      { c with
        cache_items_ := ((key, value) :: c.cache_items_).dropLast,
        cacheMap :=
          (key :: c.cacheMap).erase
            (((key, value) :: c.cache_items_).getLast (List.cons_ne_nil _ _)).1 }
    else
      { c with
        cache_items_ := (key, value) :: c.cache_items_,
        cacheMap := key :: c.cacheMap }

/-- `void remove(const Key& key)`: if the key is in `cacheMap`, erase the
node the stored iterator denotes from `cache_items_` and the key from
`cacheMap`; otherwise do nothing. -/
def LRUCache.remove (c : LRUCache K V) (key : K) : LRUCache K V :=
  if key ∈ c.cacheMap then
    { c with
      cache_items_ := c.cache_items_.eraseP (keyMatches key),
      cacheMap := c.cacheMap.erase key }
  else
    c

/-- `size_t size() const { return cacheMap.size(); }` -/
def LRUCache.size (c : LRUCache K V) : Nat := c.cacheMap.length

/-- The keys of the recency list, in recency order. -/
def LRUCache.keys (c : LRUCache K V) : List K := c.cache_items_.map Prod.fst

/-- One public operation of the cache API (size is pure and omitted:
it does not change the state). -/
inductive Op (K V : Type) where
  | get (key : K)
  | put (key : K) (value : V)
  | remove (key : K)
deriving Repr, DecidableEq

/-- Apply one operation to the state. -/
def LRUCache.applyOp (c : LRUCache K V) : Op K V → LRUCache K V
  | .get k => (c.get k).2
  | .put k v => c.put k v
  | .remove k => c.remove k

/-- Run a sequence of operations from a state. -/
def LRUCache.run (c : LRUCache K V) : List (Op K V) → LRUCache K V
  | [] => c
  | op :: ops => (c.applyOp op).run ops

/-- Well-formedness: the index key set has no duplicates, the recency list
has no two nodes with the same key, a key is in the index iff a node with
that key is in the list, and the entry count is within capacity.  This is
the invariant the C++ code maintains (the map stores exactly one iterator
per key, each pointing at a distinct live node). -/
def LRUCache.WF (c : LRUCache K V) : Prop :=
  c.cacheMap.Nodup ∧ c.keys.Nodup ∧
  (∀ k ∈ c.cacheMap, k ∈ c.keys) ∧ (∀ k ∈ c.keys, k ∈ c.cacheMap) ∧
  c.cacheMap.length ≤ c.capacity_

instance (c : LRUCache K V) : Decidable c.WF := by
  unfold LRUCache.WF
  exact inferInstance

/-! ### List-level helper lemmas -/

@[simp] theorem keyMatches_iff (key : K) (p : K × V) : keyMatches key p = true ↔ p.1 = key := by
  simp [keyMatches]

theorem find?_cons_eraseP_perm {α : Type} {p : α → Bool} {l : List α} {e : α}
    (h : l.find? p = some e) : List.Perm (e :: l.eraseP p) l := by
  induction l with
  | nil => simp at h
  | cons a l ih =>
    by_cases hpa : p a
    · rw [List.find?_cons_of_pos _ hpa] at h
      cases h
      rw [List.eraseP_cons_of_pos hpa]
    · rw [List.find?_cons_of_neg _ hpa] at h
      rw [List.eraseP_cons_of_neg hpa]
      exact (List.Perm.swap a e _).trans ((ih h).cons a)

theorem map_fst_eraseP_eq_erase (key : K) (l : List (K × V)) :
    (l.eraseP (keyMatches key)).map Prod.fst = (l.map Prod.fst).erase key := by
  rw [List.erase_eq_eraseP', List.eraseP_map]
  rfl

omit [DecidableEq K] in
theorem map_fst_dropLast_getLast (l : List (K × V)) (h : l ≠ []) :
    l.map Prod.fst = l.dropLast.map Prod.fst ++ [(l.getLast h).1] := by
  conv_lhs => rw [← List.dropLast_append_getLast h]
  rw [List.map_append, List.map_cons, List.map_nil]

/-! ### Characterization of the operations -/

theorem find?_hit {c : LRUCache K V} {key : K} (hwf : c.WF) (hk : key ∈ c.cacheMap) :
    ∃ v, c.cache_items_.find? (keyMatches key) = some (key, v) := by
  have hkeys : key ∈ c.keys := hwf.2.2.1 key hk
  rw [LRUCache.keys, List.mem_map] at hkeys
  obtain ⟨p, hp, hfst⟩ := hkeys
  have hs : (c.cache_items_.find? (keyMatches key)).isSome := by
    rw [List.find?_isSome]
    exact ⟨p, hp, by simp [hfst]⟩
  obtain ⟨e, he⟩ := Option.isSome_iff_exists.mp hs
  have hpe : e.1 = key := by simpa using List.find?_some he
  refine ⟨e.2, ?_⟩
  rw [he]
  cases e
  simp_all

theorem get_miss (c : LRUCache K V) (key : K) (h : key ∉ c.cacheMap) :
    c.get key = (none, c) := by
  simp [LRUCache.get, h]

theorem get_hit (c : LRUCache K V) (key : K) (hwf : c.WF) (hk : key ∈ c.cacheMap) :
    ∃ v, c.cache_items_.find? (keyMatches key) = some (key, v) ∧
      c.get key = (some v,
        { c with cache_items_ := (key, v) :: c.cache_items_.eraseP (keyMatches key) }) := by
  obtain ⟨v, hfind⟩ := find?_hit hwf hk
  exact ⟨v, hfind, by simp [LRUCache.get, hk, hfind]⟩

theorem put_present (c : LRUCache K V) (key : K) (value : V) (hwf : c.WF)
    (hk : key ∈ c.cacheMap) :
    c.put key value =
      { c with cache_items_ := (key, value) :: c.cache_items_.eraseP (keyMatches key) } := by
  obtain ⟨v, hfind⟩ := find?_hit hwf hk
  simp [LRUCache.put, hk, hfind]

theorem put_absent_no_evict (c : LRUCache K V) (key : K) (value : V)
    (hk : key ∉ c.cacheMap) (hle : c.cacheMap.length + 1 ≤ c.capacity_) :
    c.put key value =
      { c with
        cache_items_ := (key, value) :: c.cache_items_,
        cacheMap := key :: c.cacheMap } := by
  have : ¬ (c.cacheMap.length + 1 > c.capacity_) := Nat.not_lt.mpr hle
  simp [LRUCache.put, hk, this]

theorem put_absent_evict_eq (c : LRUCache K V) (key : K) (value : V)
    (hk : key ∉ c.cacheMap) (hover : c.capacity_ < c.cacheMap.length + 1) :
    c.put key value =
      { c with
        cache_items_ := ((key, value) :: c.cache_items_).dropLast,
        cacheMap := (key :: c.cacheMap).erase
          (((key, value) :: c.cache_items_).getLast (List.cons_ne_nil _ _)).1 } := by
  simp [LRUCache.put, hk, hover]

theorem remove_present (c : LRUCache K V) (key : K) (hk : key ∈ c.cacheMap) :
    c.remove key =
      { c with
        cache_items_ := c.cache_items_.eraseP (keyMatches key),
        cacheMap := c.cacheMap.erase key } := by
  simp [LRUCache.remove, hk]

theorem remove_absent (c : LRUCache K V) (key : K) (hk : key ∉ c.cacheMap) :
    c.remove key = c := by
  simp [LRUCache.remove, hk]

/-! ### Preservation of well-formedness -/

omit [DecidableEq K] in
theorem WF_init (cap : Nat) : (LRUCache.init cap : LRUCache K V).WF := by
  unfold LRUCache.WF LRUCache.init LRUCache.keys
  simp

theorem WF_get (c : LRUCache K V) (key : K) (hwf : c.WF) : ((c.get key).2).WF := by
  by_cases hk : key ∈ c.cacheMap
  · obtain ⟨v, hfind, hget⟩ := get_hit c key hwf hk
    obtain ⟨hnm, hnk, hmk, hkm, hcap⟩ := hwf
    have hperm : List.Perm ((key, v) :: c.cache_items_.eraseP (keyMatches key)) c.cache_items_ :=
      find?_cons_eraseP_perm hfind
    have hkeys : List.Perm (((key, v) :: c.cache_items_.eraseP (keyMatches key)).map Prod.fst)
        (c.cache_items_.map Prod.fst) := hperm.map Prod.fst
    rw [hget]
    exact ⟨hnm, hkeys.nodup_iff.mpr hnk,
      fun k hkc => hkeys.mem_iff.mpr (hmk k hkc),
      fun k hkc => hkm k (hkeys.mem_iff.mp hkc),
      hcap⟩
  · rw [get_miss c key hk]
    exact hwf

theorem WF_put (c : LRUCache K V) (key : K) (value : V) (hwf : c.WF) :
    (c.put key value).WF := by
  obtain ⟨hnm, hnk, hmk, hkm, hcap⟩ := hwf
  by_cases hk : key ∈ c.cacheMap
  · rw [put_present c key value ⟨hnm, hnk, hmk, hkm, hcap⟩ hk]
    have he : (c.cache_items_.eraseP (keyMatches key)).map Prod.fst = c.keys.erase key :=
      map_fst_eraseP_eq_erase key c.cache_items_
    have hknotin : key ∉ c.keys.erase key := fun h => (hnk.mem_erase_iff.mp h).1 rfl
    refine ⟨hnm, ?_, ?_, ?_, hcap⟩
    · show (((key, value) :: c.cache_items_.eraseP (keyMatches key)).map Prod.fst).Nodup
      rw [List.map_cons, he, List.nodup_cons]
      exact ⟨hknotin, hnk.erase key⟩
    · intro k hkc
      show k ∈ ((key, value) :: c.cache_items_.eraseP (keyMatches key)).map Prod.fst
      rw [List.map_cons, he]
      rcases eq_or_ne k key with rfl | hne
      · exact List.mem_cons_self _ _
      · exact List.mem_cons_of_mem _ (hnk.mem_erase_iff.mpr ⟨hne, hmk k hkc⟩)
    · intro k hkc
      replace hkc : k ∈ ((key, value) :: c.cache_items_.eraseP (keyMatches key)).map Prod.fst := hkc
      rw [List.map_cons, he, List.mem_cons] at hkc
      rcases hkc with rfl | hkc
      · exact hk
      · exact hkm k (List.mem_of_mem_erase hkc)
  · by_cases hov : c.cacheMap.length + 1 ≤ c.capacity_
    · rw [put_absent_no_evict c key value hk hov]
      have hknotin : key ∉ c.keys := fun h => hk (hkm key h)
      refine ⟨?_, ?_, ?_, ?_, ?_⟩
      · show (key :: c.cacheMap).Nodup
        exact List.nodup_cons.mpr ⟨hk, hnm⟩
      · show (key :: c.cache_items_.map Prod.fst).Nodup
        exact List.nodup_cons.mpr ⟨hknotin, hnk⟩
      · intro k hkc
        replace hkc : k ∈ key :: c.cacheMap := hkc
        show k ∈ key :: c.cache_items_.map Prod.fst
        rcases List.mem_cons.mp hkc with rfl | h
        · exact List.mem_cons_self _ _
        · exact List.mem_cons_of_mem _ (hmk k h)
      · intro k hkc
        replace hkc : k ∈ key :: c.cache_items_.map Prod.fst := hkc
        show k ∈ key :: c.cacheMap
        rcases List.mem_cons.mp hkc with rfl | h
        · exact List.mem_cons_self _ _
        · exact List.mem_cons_of_mem _ (hkm k h)
      · show (key :: c.cacheMap).length ≤ c.capacity_
        simpa using hov
    · have hover : c.capacity_ < c.cacheMap.length + 1 := lt_of_not_le hov
      rw [put_absent_evict_eq c key value hk hover]
      generalize hlru : ((key, value) :: c.cache_items_).getLast (List.cons_ne_nil _ _) = lru
      have hknotin : key ∉ c.keys := fun h => hk (hkm key h)
      have hnodupk : (key :: c.cache_items_.map Prod.fst).Nodup :=
        List.nodup_cons.mpr ⟨hknotin, hnk⟩
      have hnodupm : (key :: c.cacheMap).Nodup := List.nodup_cons.mpr ⟨hk, hnm⟩
      have hsplit : key :: c.cache_items_.map Prod.fst =
          ((key, value) :: c.cache_items_).dropLast.map Prod.fst ++ [lru.1] := by
        rw [← hlru]
        simpa using map_fst_dropLast_getLast ((key, value) :: c.cache_items_)
          (List.cons_ne_nil _ _)
      have hnodup_append :
          (((key, value) :: c.cache_items_).dropLast.map Prod.fst ++ [lru.1]).Nodup :=
        hsplit ▸ hnodupk
      rw [List.nodup_append] at hnodup_append
      have hlru_mem_keys : lru.1 ∈ key :: c.cache_items_.map Prod.fst := by
        rw [hsplit]
        exact List.mem_append_right _ (List.mem_singleton_self _)
      have hmemiff : ∀ x, x ∈ key :: c.cacheMap ↔ x ∈ key :: c.cache_items_.map Prod.fst := by
        intro x
        rw [List.mem_cons, List.mem_cons]
        exact or_congr Iff.rfl ⟨fun h => hmk x h, fun h => hkm x h⟩
      have hlru_mem_m : lru.1 ∈ key :: c.cacheMap := (hmemiff _).mpr hlru_mem_keys
      refine ⟨?_, ?_, ?_, ?_, ?_⟩
      · show ((key :: c.cacheMap).erase lru.1).Nodup
        exact hnodupm.erase _
      · show (((key, value) :: c.cache_items_).dropLast.map Prod.fst).Nodup
        exact hnodup_append.1
      · intro x hx
        replace hx : x ∈ (key :: c.cacheMap).erase lru.1 := hx
        show x ∈ ((key, value) :: c.cache_items_).dropLast.map Prod.fst
        obtain ⟨hne, hxm⟩ := hnodupm.mem_erase_iff.mp hx
        have hxk : x ∈ key :: c.cache_items_.map Prod.fst := (hmemiff x).mp hxm
        rw [hsplit, List.mem_append] at hxk
        rcases hxk with h | h
        · exact h
        · exact absurd (List.mem_singleton.mp h) hne
      · intro x hx
        replace hx : x ∈ ((key, value) :: c.cache_items_).dropLast.map Prod.fst := hx
        show x ∈ (key :: c.cacheMap).erase lru.1
        have hxne : x ≠ lru.1 := fun he =>
          hnodup_append.2.2 hx (List.mem_singleton.mpr he)
        have hxk : x ∈ key :: c.cache_items_.map Prod.fst := by
          rw [hsplit]
          exact List.mem_append_left _ hx
        exact hnodupm.mem_erase_iff.mpr ⟨hxne, (hmemiff x).mpr hxk⟩
      · show ((key :: c.cacheMap).erase lru.1).length ≤ c.capacity_
        rw [List.length_erase_of_mem hlru_mem_m]
        simpa using hcap

theorem WF_remove (c : LRUCache K V) (key : K) (hwf : c.WF) : (c.remove key).WF := by
  obtain ⟨hnm, hnk, hmk, hkm, hcap⟩ := hwf
  by_cases hk : key ∈ c.cacheMap
  · rw [remove_present c key hk]
    have he : (c.cache_items_.eraseP (keyMatches key)).map Prod.fst = c.keys.erase key :=
      map_fst_eraseP_eq_erase key c.cache_items_
    refine ⟨hnm.erase key, ?_, ?_, ?_, ?_⟩
    · show ((c.cache_items_.eraseP (keyMatches key)).map Prod.fst).Nodup
      rw [he]
      exact hnk.erase key
    · intro x hx
      replace hx : x ∈ c.cacheMap.erase key := hx
      obtain ⟨hne, hxm⟩ := hnm.mem_erase_iff.mp hx
      show x ∈ (c.cache_items_.eraseP (keyMatches key)).map Prod.fst
      rw [he]
      exact hnk.mem_erase_iff.mpr ⟨hne, hmk x hxm⟩
    · intro x hx
      replace hx : x ∈ (c.cache_items_.eraseP (keyMatches key)).map Prod.fst := hx
      rw [he] at hx
      obtain ⟨hne, hxk⟩ := hnk.mem_erase_iff.mp hx
      show x ∈ c.cacheMap.erase key
      exact hnm.mem_erase_iff.mpr ⟨hne, hkm x hxk⟩
    · show (c.cacheMap.erase key).length ≤ c.capacity_
      exact le_trans (List.length_erase_le _ _) hcap
  · rw [remove_absent c key hk]
    exact ⟨hnm, hnk, hmk, hkm, hcap⟩

theorem capacity_get (c : LRUCache K V) (key : K) :
    ((c.get key).2).capacity_ = c.capacity_ := by
  unfold LRUCache.get
  split
  · split <;> rfl
  · rfl

theorem capacity_put (c : LRUCache K V) (key : K) (value : V) :
    (c.put key value).capacity_ = c.capacity_ := by
  unfold LRUCache.put
  split
  · split <;> rfl
  · split <;> rfl

theorem capacity_remove (c : LRUCache K V) (key : K) :
    (c.remove key).capacity_ = c.capacity_ := by
  unfold LRUCache.remove
  split <;> rfl

theorem capacity_applyOp (c : LRUCache K V) (op : Op K V) :
    (c.applyOp op).capacity_ = c.capacity_ := by
  cases op with
  | get k => exact capacity_get c k
  | put k v => exact capacity_put c k v
  | remove k => exact capacity_remove c k

theorem WF_applyOp (c : LRUCache K V) (op : Op K V) (hwf : c.WF) : (c.applyOp op).WF := by
  cases op with
  | get k => exact WF_get c k hwf
  | put k v => exact WF_put c k v hwf
  | remove k => exact WF_remove c k hwf

theorem WF_run (c : LRUCache K V) (ops : List (Op K V)) (hwf : c.WF) : (c.run ops).WF := by
  induction ops generalizing c with
  | nil => exact hwf
  | cons op ops ih => exact ih _ (WF_applyOp c op hwf)

theorem capacity_run (c : LRUCache K V) (ops : List (Op K V)) :
    (c.run ops).capacity_ = c.capacity_ := by
  induction ops generalizing c with
  | nil => rfl
  | cons op ops ih =>
    simp only [LRUCache.run]
    rw [ih, capacity_applyOp]

/-- A concrete capacity-2 cache holding keys 1 and 2, used by several
witnesses: the state after `put 1 10; put 2 20` from a fresh cache. -/
def sample2 : LRUCache Nat Nat := ((LRUCache.init 2).put 1 10).put 2 20

/-! ### The claims -/

/-- C1: for every cache constructed with capacity ≥ 1 and every sequence of
operations, after each put returns, `size() ≤ capacity`. -/
theorem lru_capacity_after_put (cap : Nat) (_hcap : 1 ≤ cap)
    (ops : List (Op K V)) (key : K) (value : V) :
    (((LRUCache.init cap : LRUCache K V).run ops).put key value).size ≤ cap := by
  have hwf := WF_put _ key value (WF_run _ ops (WF_init (K := K) (V := V) cap))
  have hc := capacity_put ((LRUCache.init cap : LRUCache K V).run ops) key value
  rw [capacity_run] at hc
  have hle := hwf.2.2.2.2
  rw [hc] at hle
  exact hle

/-- Witness for C1: a concrete capacity-2 cache with an interleaved history. -/
theorem lru_capacity_after_put_witness :
    1 ≤ 2 ∧
    (((LRUCache.init 2 : LRUCache Nat Nat).run
        [Op.put 1 10, Op.put 2 20, Op.get 1, Op.remove 2, Op.put 4 40]).put 3 30).size ≤ 2 :=
  ⟨by decide, lru_capacity_after_put 2 (by decide) _ 3 30⟩

/-- C3: `get` on a key absent from the cache returns not-found and leaves the
whole state (recency list, index, capacity) unchanged. -/
theorem lru_get_miss_no_side_effect (c : LRUCache K V) (key : K)
    (hk : key ∉ c.cacheMap) : c.get key = (none, c) :=
  get_miss c key hk

/-- Witness for C3 at a concrete two-entry cache and a missing key. -/
theorem lru_get_miss_no_side_effect_witness :
    (7 : Nat) ∉ sample2.cacheMap ∧ sample2.get 7 = (none, sample2) :=
  ⟨by decide, lru_get_miss_no_side_effect sample2 7 (by decide)⟩

/-- C7: `put(k, v)` immediately followed by `get(k)` returns `(found, v)`,
for any well-formed state of a cache with capacity ≥ 1. -/
theorem lru_put_get_roundtrip (c : LRUCache K V) (key : K) (value : V)
    (hwf : c.WF) (hcap : 1 ≤ c.capacity_) :
    ((c.put key value).get key).1 = some value := by
  by_cases hk : key ∈ c.cacheMap
  · rw [put_present c key value hwf hk]
    simp [LRUCache.get, hk, List.find?_cons, keyMatches]
  · by_cases hov : c.cacheMap.length + 1 ≤ c.capacity_
    · rw [put_absent_no_evict c key value hk hov]
      simp [LRUCache.get, List.find?_cons, keyMatches]
    · have hover : c.capacity_ < c.cacheMap.length + 1 := lt_of_not_le hov
      have hlen : 1 ≤ c.cacheMap.length := le_trans hcap (Nat.lt_succ_iff.mp hover)
      obtain ⟨k0, hk0⟩ := List.exists_mem_of_length_pos hlen
      have hkeys0 : k0 ∈ c.keys := hwf.2.2.1 k0 hk0
      have hne : c.cache_items_ ≠ [] := by
        intro h
        rw [LRUCache.keys, h] at hkeys0
        simp at hkeys0
      have hlru_mem : (((key, value) :: c.cache_items_).getLast (List.cons_ne_nil _ _)) ∈
          c.cache_items_ := by
        rw [List.getLast_cons hne]
        exact List.getLast_mem hne
      have hlru_ne : (((key, value) :: c.cache_items_).getLast (List.cons_ne_nil _ _)).1 ≠ key := by
        intro h
        apply hk
        apply hwf.2.2.2.1
        rw [← h]
        exact List.mem_map_of_mem Prod.fst hlru_mem
      rw [put_absent_evict_eq c key value hk hover]
      have hmem' : key ∈ (key :: c.cacheMap).erase
          (((key, value) :: c.cache_items_).getLast (List.cons_ne_nil _ _)).1 := by
        rw [List.erase_cons_tail (by simpa using Ne.symm hlru_ne)]
        exact List.mem_cons_self _ _
      have hdrop : ((key, value) :: c.cache_items_).dropLast =
          (key, value) :: c.cache_items_.dropLast := List.dropLast_cons_of_ne_nil hne
      rw [hdrop]
      simp [LRUCache.get, hmem', List.find?_cons, keyMatches]

/-- Witness for C7: putting key 3 into a full concrete capacity-2 cache. -/
theorem lru_put_get_roundtrip_witness :
    (sample2.WF ∧ 1 ≤ sample2.capacity_) ∧ ((sample2.put 3 30).get 3).1 = some 30 :=
  ⟨⟨by decide, by decide⟩, lru_put_get_roundtrip sample2 3 30 (by decide) (by decide)⟩

/-- C8: in every state reachable from a fresh cache of capacity ≥ 1, a key is
in the index iff an entry with that key is in the recency list, the index and
the list have the same length, `size()` returns that count, and it is at most
the capacity. -/
theorem lru_index_list_consistency (cap : Nat) (_hcap : 1 ≤ cap)
    (ops : List (Op K V)) :
    (∀ k, k ∈ ((LRUCache.init cap : LRUCache K V).run ops).cacheMap ↔
        k ∈ ((LRUCache.init cap : LRUCache K V).run ops).keys) ∧
    ((LRUCache.init cap : LRUCache K V).run ops).cacheMap.length =
      ((LRUCache.init cap : LRUCache K V).run ops).cache_items_.length ∧
    ((LRUCache.init cap : LRUCache K V).run ops).size =
      ((LRUCache.init cap : LRUCache K V).run ops).cacheMap.length ∧
    ((LRUCache.init cap : LRUCache K V).run ops).size ≤ cap := by
  obtain ⟨hnm, hnk, hmk, hkm, hcap'⟩ := WF_run (LRUCache.init cap : LRUCache K V) ops
    (WF_init cap)
  refine ⟨fun k => ⟨hmk k, hkm k⟩, ?_, rfl, ?_⟩
  · have hperm := (List.perm_ext_iff_of_nodup hnm hnk).mpr (fun k => ⟨hmk k, hkm k⟩)
    have hlen := hperm.length_eq
    rw [LRUCache.keys, List.length_map] at hlen
    exact hlen
  · rw [capacity_run] at hcap'
    exact hcap'

/-- Witness for C8 after a concrete interleaved history. -/
theorem lru_index_list_consistency_witness :
    1 ≤ 2 ∧
    ((∀ k, k ∈ ((LRUCache.init 2 : LRUCache Nat Nat).run
          [Op.put 1 10, Op.get 1, Op.put 2 20, Op.put 3 30, Op.remove 3]).cacheMap ↔
        k ∈ ((LRUCache.init 2 : LRUCache Nat Nat).run
          [Op.put 1 10, Op.get 1, Op.put 2 20, Op.put 3 30, Op.remove 3]).keys) ∧
      ((LRUCache.init 2 : LRUCache Nat Nat).run
          [Op.put 1 10, Op.get 1, Op.put 2 20, Op.put 3 30, Op.remove 3]).cacheMap.length =
        ((LRUCache.init 2 : LRUCache Nat Nat).run
          [Op.put 1 10, Op.get 1, Op.put 2 20, Op.put 3 30, Op.remove 3]).cache_items_.length ∧
      ((LRUCache.init 2 : LRUCache Nat Nat).run
          [Op.put 1 10, Op.get 1, Op.put 2 20, Op.put 3 30, Op.remove 3]).size =
        ((LRUCache.init 2 : LRUCache Nat Nat).run
          [Op.put 1 10, Op.get 1, Op.put 2 20, Op.put 3 30, Op.remove 3]).cacheMap.length ∧
      ((LRUCache.init 2 : LRUCache Nat Nat).run
          [Op.put 1 10, Op.get 1, Op.put 2 20, Op.put 3 30, Op.remove 3]).size ≤ 2) :=
  ⟨by decide, lru_index_list_consistency 2 (by decide)
    [Op.put 1 10, Op.get 1, Op.put 2 20, Op.put 3 30, Op.remove 3]⟩

/-- C10: construction accepts capacity 0 unchecked; every state reachable
from a capacity-0 cache is the empty state, so after every put the size is 0
(the put inserts the new entry and at once evicts it, the sole list element)
and every get misses. -/
theorem lru_capacity_zero_behavior (ops : List (Op K V)) (key : K) (value : V) :
    (LRUCache.init 0 : LRUCache K V).capacity_ = 0 ∧
    (LRUCache.init 0 : LRUCache K V).run ops = LRUCache.init 0 ∧
    (((LRUCache.init 0 : LRUCache K V).run ops).put key value).size = 0 ∧
    (((LRUCache.init 0 : LRUCache K V).run ops).get key).1 = none := by
  have hput : ∀ (k : K) (v : V),
      (LRUCache.init 0 : LRUCache K V).put k v = LRUCache.init 0 := by
    intro k v
    have hk : k ∉ (LRUCache.init 0 : LRUCache K V).cacheMap := by
      simp [LRUCache.init]
    rw [put_absent_evict_eq _ k v hk (by simp [LRUCache.init])]
    simp [LRUCache.init]
  have hrun : (LRUCache.init 0 : LRUCache K V).run ops = LRUCache.init 0 := by
    induction ops with
    | nil => rfl
    | cons op ops ih =>
      simp only [LRUCache.run]
      have hop : (LRUCache.init 0 : LRUCache K V).applyOp op = LRUCache.init 0 := by
        cases op with
        | get k =>
          have hk : k ∉ (LRUCache.init 0 : LRUCache K V).cacheMap := by
            simp [LRUCache.init]
          simp [LRUCache.applyOp, get_miss _ _ hk]
        | put k v => exact hput k v
        | remove k =>
          have hk : k ∉ (LRUCache.init 0 : LRUCache K V).cacheMap := by
            simp [LRUCache.init]
          simp [LRUCache.applyOp, remove_absent _ _ hk]
      rw [hop, ih]
  refine ⟨rfl, hrun, ?_, ?_⟩
  · rw [hrun, hput key value]
    rfl
  · rw [hrun, get_miss _ key (by simp [LRUCache.init])]

/-- If the index is nonempty and every index key has a list entry, the
recency list is nonempty. -/
theorem cache_items_ne_nil (c : LRUCache K V) (hmk : ∀ k ∈ c.cacheMap, k ∈ c.keys)
    (hlen : 1 ≤ c.cacheMap.length) : c.cache_items_ ≠ [] := by
  obtain ⟨k0, hk0⟩ := List.exists_mem_of_length_pos hlen
  intro h
  have hkeys := hmk k0 hk0
  rw [LRUCache.keys, h] at hkeys
  simp at hkeys

/-- C4: `get` on a present key returns the stored value, relocates that entry
to the most-recently-used end with its value unchanged, and changes nothing
else: the index, the multiset of entries, the size and the capacity are
unchanged. -/
theorem lru_get_hit_refreshes_recency (c : LRUCache K V) (key : K)
    (hwf : c.WF) (hk : key ∈ c.cacheMap) :
    ∃ v, c.cache_items_.find? (keyMatches key) = some (key, v) ∧
      (c.get key).1 = some v ∧
      ((c.get key).2).cache_items_.head? = some (key, v) ∧
      ((c.get key).2).cacheMap = c.cacheMap ∧
      List.Perm ((c.get key).2).cache_items_ c.cache_items_ ∧
      ((c.get key).2).size = c.size ∧
      ((c.get key).2).capacity_ = c.capacity_ := by
  obtain ⟨v, hfind, hget⟩ := get_hit c key hwf hk
  rw [hget]
  exact ⟨v, hfind, rfl, rfl, rfl, find?_cons_eraseP_perm hfind, rfl, rfl⟩

/-- Witness for C4: getting key 1 from a concrete two-entry cache. -/
theorem lru_get_hit_refreshes_recency_witness :
    (sample2.WF ∧ 1 ∈ sample2.cacheMap) ∧
    (∃ v, sample2.cache_items_.find? (keyMatches 1) = some (1, v) ∧
      (sample2.get 1).1 = some v ∧
      ((sample2.get 1).2).cache_items_.head? = some (1, v) ∧
      ((sample2.get 1).2).cacheMap = sample2.cacheMap ∧
      List.Perm ((sample2.get 1).2).cache_items_ sample2.cache_items_ ∧
      ((sample2.get 1).2).size = sample2.size ∧
      ((sample2.get 1).2).capacity_ = sample2.capacity_) :=
  ⟨⟨by decide, by decide⟩,
   lru_get_hit_refreshes_recency sample2 1 (by decide) (by decide)⟩

/-- C5: `put` on a present key overwrites the value in place and relocates
the entry to the most-recently-used end; the index, the size and the entry
count are unchanged and the other entries keep their keys, values and
relative order; and in the concrete capacity-2 scenario (put 1, put 2,
re-put 1) the size stays 2 and both keys stay retrievable. -/
theorem lru_put_present_updates_in_place (c : LRUCache K V) (key : K) (value : V)
    (hwf : c.WF) (hk : key ∈ c.cacheMap) :
    ((c.put key value).cache_items_ =
        (key, value) :: c.cache_items_.eraseP (keyMatches key) ∧
      (c.put key value).cacheMap = c.cacheMap ∧
      (c.put key value).size = c.size ∧
      (c.put key value).cache_items_.length = c.cache_items_.length ∧
      List.Sublist (c.cache_items_.eraseP (keyMatches key)) c.cache_items_) ∧
    ((sample2.put 1 11).size = 2 ∧
      ((sample2.put 1 11).get 1).1 = some 11 ∧
      ((sample2.put 1 11).get 2).1 = some 20) := by
  obtain ⟨v, hfind⟩ := find?_hit hwf hk
  have hp := put_present c key value hwf hk
  have hmem := List.mem_of_find?_eq_some hfind
  have hpos := List.length_pos_of_mem hmem
  refine ⟨⟨?_, ?_, ?_, ?_, List.eraseP_sublist _⟩, by decide, by decide, by decide⟩
  · rw [hp]
  · rw [hp]
  · rw [hp]
    rfl
  · rw [hp]
    show ((key, value) :: c.cache_items_.eraseP (keyMatches key)).length = _
    rw [List.length_cons, List.length_eraseP_of_mem hmem (by simp)]
    omega

/-- Witness for C5: overwriting key 1 in a concrete two-entry cache. -/
theorem lru_put_present_updates_in_place_witness :
    (sample2.WF ∧ 1 ∈ sample2.cacheMap) ∧
    (((sample2.put 1 11).cache_items_ =
        (1, 11) :: sample2.cache_items_.eraseP (keyMatches 1) ∧
      (sample2.put 1 11).cacheMap = sample2.cacheMap ∧
      (sample2.put 1 11).size = sample2.size ∧
      (sample2.put 1 11).cache_items_.length = sample2.cache_items_.length ∧
      List.Sublist (sample2.cache_items_.eraseP (keyMatches 1)) sample2.cache_items_) ∧
    ((sample2.put 1 11).size = 2 ∧
      ((sample2.put 1 11).get 1).1 = some 11 ∧
      ((sample2.put 1 11).get 2).1 = some 20)) :=
  ⟨⟨by decide, by decide⟩,
   lru_put_present_updates_in_place sample2 1 11 (by decide) (by decide)⟩

/-- C6: `remove` on a present key deletes the entry from both the recency
list and the index (the size drops by one); `remove` on an absent key is a
silent no-op; and `remove` is idempotent. -/
theorem lru_remove_present_absent_idempotent (c : LRUCache K V) (key : K)
    (hwf : c.WF) :
    (key ∈ c.cacheMap →
      (c.remove key).cacheMap = c.cacheMap.erase key ∧
      (c.remove key).cache_items_ = c.cache_items_.eraseP (keyMatches key) ∧
      key ∉ (c.remove key).cacheMap ∧
      key ∉ (c.remove key).keys ∧
      (c.remove key).size + 1 = c.size) ∧
    (key ∉ c.cacheMap → c.remove key = c) ∧
    (c.remove key).remove key = c.remove key := by
  obtain ⟨hnm, hnk, hmk, hkm, hcap⟩ := hwf
  by_cases hk : key ∈ c.cacheMap
  · have hr := remove_present c key hk
    have hnotin : key ∉ (c.remove key).cacheMap := by
      rw [hr]
      intro h
      exact (hnm.mem_erase_iff.mp h).1 rfl
    refine ⟨fun _ => ⟨?_, ?_, hnotin, ?_, ?_⟩, fun h => absurd hk h,
      remove_absent _ _ hnotin⟩
    · rw [hr]
    · rw [hr]
    · rw [hr]
      show key ∉ (c.cache_items_.eraseP (keyMatches key)).map Prod.fst
      rw [map_fst_eraseP_eq_erase]
      intro h
      exact (hnk.mem_erase_iff.mp h).1 rfl
    · rw [hr]
      show (c.cacheMap.erase key).length + 1 = c.cacheMap.length
      rw [List.length_erase_of_mem hk]
      have := List.length_pos_of_mem hk
      omega
  · have hr := remove_absent c key hk
    exact ⟨fun h => absurd h hk, fun _ => hr, by rw [hr, hr]⟩

/-- Witness for C6 at a concrete two-entry cache. -/
theorem lru_remove_present_absent_idempotent_witness :
    sample2.WF ∧
    ((1 ∈ sample2.cacheMap →
      (sample2.remove 1).cacheMap = sample2.cacheMap.erase 1 ∧
      (sample2.remove 1).cache_items_ = sample2.cache_items_.eraseP (keyMatches 1) ∧
      1 ∉ (sample2.remove 1).cacheMap ∧
      1 ∉ (sample2.remove 1).keys ∧
      (sample2.remove 1).size + 1 = sample2.size) ∧
    (1 ∉ sample2.cacheMap → sample2.remove 1 = sample2) ∧
    (sample2.remove 1).remove 1 = sample2.remove 1) :=
  ⟨by decide, lru_remove_present_absent_idempotent sample2 1 (by decide)⟩

/-- C2: a put of an absent key puts the new entry at the most-recently-used
end and adds the key to the index; when the insertion would exceed the
capacity, exactly one entry — the least-recently-used (tail) one at that
moment — is evicted, removed from both the recency list and the index, so
the size is unchanged; and in the concrete capacity-2 scenario put 1, put 2,
get 1, put 3, key 2 is the one evicted while keys 1 and 3 stay retrievable. -/
theorem lru_put_absent_evicts_lru (c : LRUCache K V) (key : K) (value : V)
    (hwf : c.WF) (hcap1 : 1 ≤ c.capacity_) (hk : key ∉ c.cacheMap) :
    ((c.put key value).cache_items_.head? = some (key, value) ∧
      key ∈ (c.put key value).cacheMap) ∧
    (c.cacheMap.length + 1 ≤ c.capacity_ →
      (c.put key value).cache_items_ = (key, value) :: c.cache_items_ ∧
      (c.put key value).cacheMap = key :: c.cacheMap ∧
      (c.put key value).size = c.size + 1) ∧
    (c.capacity_ < c.cacheMap.length + 1 →
      ∃ lru, c.cache_items_.getLast? = some lru ∧
        (c.put key value).cache_items_ = (key, value) :: c.cache_items_.dropLast ∧
        (c.put key value).cacheMap = key :: c.cacheMap.erase lru.1 ∧
        lru.1 ∉ (c.put key value).cacheMap ∧
        lru.1 ∉ (c.put key value).keys ∧
        (c.put key value).size = c.size) ∧
    ((((sample2.get 1).2.put 3 30).get 2).1 = none ∧
      (((sample2.get 1).2.put 3 30).get 1).1 = some 10 ∧
      (((sample2.get 1).2.put 3 30).get 3).1 = some 30) := by
  obtain ⟨hnm, hnk, hmk, hkm, hcap⟩ := hwf
  refine ⟨?_, ?_, ?_, by decide, by decide, by decide⟩
  · by_cases hov : c.cacheMap.length + 1 ≤ c.capacity_
    · rw [put_absent_no_evict c key value hk hov]
      exact ⟨rfl, List.mem_cons_self _ _⟩
    · have hover : c.capacity_ < c.cacheMap.length + 1 := lt_of_not_le hov
      have hlen : 1 ≤ c.cacheMap.length := le_trans hcap1 (Nat.lt_succ_iff.mp hover)
      have hne : c.cache_items_ ≠ [] := cache_items_ne_nil c hmk hlen
      have hlru1_m : (c.cache_items_.getLast hne).1 ∈ c.cacheMap :=
        hkm _ (List.mem_map_of_mem Prod.fst (List.getLast_mem hne))
      have hlru_ne_key : (c.cache_items_.getLast hne).1 ≠ key := fun h => hk (h ▸ hlru1_m)
      rw [put_absent_evict_eq c key value hk hover]
      constructor
      · show (((key, value) :: c.cache_items_).dropLast).head? = some (key, value)
        rw [List.dropLast_cons_of_ne_nil hne]
        rfl
      · show key ∈ (key :: c.cacheMap).erase
          (((key, value) :: c.cache_items_).getLast (List.cons_ne_nil _ _)).1
        rw [List.getLast_cons hne,
          List.erase_cons_tail (by simpa using Ne.symm hlru_ne_key)]
        exact List.mem_cons_self _ _
  · intro hle
    rw [put_absent_no_evict c key value hk hle]
    exact ⟨rfl, rfl, rfl⟩
  · intro hover
    have hlen : 1 ≤ c.cacheMap.length := le_trans hcap1 (Nat.lt_succ_iff.mp hover)
    have hne : c.cache_items_ ≠ [] := cache_items_ne_nil c hmk hlen
    have hlru_mem : c.cache_items_.getLast hne ∈ c.cache_items_ := List.getLast_mem hne
    have hlru1_m : (c.cache_items_.getLast hne).1 ∈ c.cacheMap :=
      hkm _ (List.mem_map_of_mem Prod.fst hlru_mem)
    have hlru_ne_key : (c.cache_items_.getLast hne).1 ≠ key := fun h => hk (h ▸ hlru1_m)
    refine ⟨c.cache_items_.getLast hne, List.getLast?_eq_getLast _ hne, ?_, ?_, ?_, ?_, ?_⟩
    · rw [put_absent_evict_eq c key value hk hover]
      show (((key, value) :: c.cache_items_).dropLast) = _
      exact List.dropLast_cons_of_ne_nil hne
    · rw [put_absent_evict_eq c key value hk hover]
      show (key :: c.cacheMap).erase
          (((key, value) :: c.cache_items_).getLast (List.cons_ne_nil _ _)).1 = _
      rw [List.getLast_cons hne]
      exact List.erase_cons_tail (by simpa using Ne.symm hlru_ne_key)
    · rw [put_absent_evict_eq c key value hk hover]
      intro hmem
      replace hmem : (c.cache_items_.getLast hne).1 ∈ (key :: c.cacheMap).erase
          (((key, value) :: c.cache_items_).getLast (List.cons_ne_nil _ _)).1 := hmem
      rw [List.getLast_cons hne] at hmem
      exact ((List.nodup_cons.mpr ⟨hk, hnm⟩).mem_erase_iff.mp hmem).1 rfl
    · rw [put_absent_evict_eq c key value hk hover]
      intro hmem
      replace hmem : (c.cache_items_.getLast hne).1 ∈
          (((key, value) :: c.cache_items_).dropLast).map Prod.fst := hmem
      rw [List.dropLast_cons_of_ne_nil hne, List.map_cons, List.mem_cons] at hmem
      rcases hmem with h | h
      · exact hlru_ne_key (by simpa using h)
      · have hsplit := map_fst_dropLast_getLast c.cache_items_ hne
        have hnd : (c.cache_items_.dropLast.map Prod.fst ++
            [(c.cache_items_.getLast hne).1]).Nodup := by
          rw [← hsplit]
          exact hnk
        rw [List.nodup_append] at hnd
        exact hnd.2.2 h (List.mem_singleton_self _)
    · rw [put_absent_evict_eq c key value hk hover]
      show ((key :: c.cacheMap).erase
          (((key, value) :: c.cache_items_).getLast (List.cons_ne_nil _ _)).1).length =
        c.cacheMap.length
      rw [List.getLast_cons hne,
        List.length_erase_of_mem (List.mem_cons_of_mem _ hlru1_m)]
      simp

/-- Witness for C2: putting key 3 into a full concrete capacity-2 cache. -/
theorem lru_put_absent_evicts_lru_witness :
    (sample2.WF ∧ 1 ≤ sample2.capacity_ ∧ (3 : Nat) ∉ sample2.cacheMap) ∧
    (((sample2.put 3 30).cache_items_.head? = some (3, 30) ∧
      3 ∈ (sample2.put 3 30).cacheMap) ∧
    (sample2.cacheMap.length + 1 ≤ sample2.capacity_ →
      (sample2.put 3 30).cache_items_ = (3, 30) :: sample2.cache_items_ ∧
      (sample2.put 3 30).cacheMap = 3 :: sample2.cacheMap ∧
      (sample2.put 3 30).size = sample2.size + 1) ∧
    (sample2.capacity_ < sample2.cacheMap.length + 1 →
      ∃ lru, sample2.cache_items_.getLast? = some lru ∧
        (sample2.put 3 30).cache_items_ = (3, 30) :: sample2.cache_items_.dropLast ∧
        (sample2.put 3 30).cacheMap = 3 :: sample2.cacheMap.erase lru.1 ∧
        lru.1 ∉ (sample2.put 3 30).cacheMap ∧
        lru.1 ∉ (sample2.put 3 30).keys ∧
        (sample2.put 3 30).size = sample2.size) ∧
    ((((sample2.get 1).2.put 3 30).get 2).1 = none ∧
      (((sample2.get 1).2.put 3 30).get 1).1 = some 10 ∧
      (((sample2.get 1).2.put 3 30).get 3).1 = some 30)) :=
  ⟨⟨by decide, by decide, by decide⟩,
   lru_put_absent_evicts_lru sample2 3 30 (by decide) (by decide) (by decide)⟩

end LRUSpec
